import Mathlib

/-!
Verification development for the `rsg-release-monitoring` script
(`src/rsg-release-monitoring.py`).

Strings are modelled as `List Char`.  The script's composite identifiers
(XL Release paths such as `Applications/Folder…/Release…/Phase…/Task…`)
never contain newline characters, so the Python regular expressions used by
`u_parse_xlr_id` — whose `.` does not match a newline — are modelled on
newline-free identifier strings.
-/

namespace Rsg

/-- The delimiter character class `[-\/]` of the regular expressions in
`u_parse_xlr_id` (source lines 60–66). -/
def isDelim (c : Char) : Bool := c == '-' || c == '/'

/-- The literal part name `"Release"`. -/
def partRelease : List Char := ['R', 'e', 'l', 'e', 'a', 's', 'e']

/-- The literal part name `"Phase"`. -/
def partPhase : List Char := ['P', 'h', 'a', 's', 'e']

/-- The literal part name `"Task"`. -/
def partTask : List Char := ['T', 'a', 's', 'k']

/-- The sentinel delimiter appended by `u_parse_xlr_id` (source lines 60–63):
`"-"` when `id.find("-") > 0` (a hyphen occurs at a strictly positive index),
otherwise `"/"`.  `List.findIdx` returns the list length when no hyphen
occurs, in which case the condition is false, matching Python's `-1 > 0`. -/
def sentinelChar (ident : List Char) : Char :=
  let i := ident.findIdx (fun c => c == '-')
  if 0 < i ∧ i < ident.length then '-' else '/'

/-- Core of `re.sub(rf".*[-\/]({part}[^-\/]*).*", r"\1", id)` (source line 66)
on a newline-free string: the regex engine's greedy leading `.*` selects the
LAST position where a delimiter is immediately followed by the literal
`part`; the whole string is then replaced by the captured group, namely
`part` followed by the maximal run of non-delimiter characters.  Returns
`none` when the pattern does not match (in which case `re.sub` leaves the
string unchanged).  The recursion prefers a match found in the tail, which
is exactly the last-occurrence semantics of the greedy prefix. -/
def lastOnlyAux (p : List Char) : List Char → Option (List Char)
  | [] => none
  | c :: rest =>
    match lastOnlyAux p rest with
    | some r => some r
    | none =>
      if isDelim c && p.isPrefixOf rest then
        some (p ++ (rest.drop p.length).takeWhile (fun ch => !isDelim ch))
      else none

/-- Core of `re.sub(rf"^(.*[-\/]{part}[^-\/]*).*", r"\1", id)` (source
line 64) on a newline-free string: the captured group is everything from the
start of the string up to and including the LAST delimiter-`part` segment
(the greedy `.*` inside the group selects the last such position, and
`[^-\/]*` extends over the following non-delimiter run).  Returns `none`
when the pattern does not match. -/
def keepUpToAux (p : List Char) : List Char → Option (List Char)
  | [] => none
  | c :: rest =>
    match keepUpToAux p rest with
    | some r => some (c :: r)
    | none =>
      if isDelim c && p.isPrefixOf rest then
        some (c :: (p ++ (rest.drop p.length).takeWhile (fun ch => !isDelim ch)))
      else none

/-- `re.sub` semantics: the result of the substitution at line 66, falling
through to the (sentinel-extended) input when the pattern does not match. -/
def subLastOnly (s p : List Char) : List Char := (lastOnlyAux p s).getD s

/-- `re.sub` semantics: the result of the substitution at line 64, falling
through to the (sentinel-extended) input when the pattern does not match. -/
def subKeepUpTo (s p : List Char) : List Char := (keepUpToAux p s).getD s

/-- The computation performed by `u_parse_xlr_id` after the part-name
validation (source lines 60–68): append the sentinel delimiter, apply the
line-64 substitution, and — when `last_part_only` — the line-66
substitution instead. -/
def parseCore (ident p : List Char) (last_part_only : Bool) : List Char :=
  let s := ident ++ [sentinelChar ident]
  if last_part_only then subLastOnly s p else subKeepUpTo s p

/-- `u_parse_xlr_id(id, part, last_part_only)` (source lines 52–68).
`Except.error ()` models `sys.exit(1)` on an unrecognized part name
(source lines 53–55): the function logs an error and terminates the process
without returning a value. -/
def u_parse_xlr_id (ident p : List Char) (last_part_only : Bool) :
    Except Unit (List Char) :=
  if p = partRelease ∨ p = partPhase ∨ p = partTask then
    Except.ok (parseCore ident p last_part_only)
  else
    Except.error ()

example :
    parseCore
      (['A', 'p', 'p', 's', '/'] ++ partRelease ++ ['1', '/'] ++ partPhase ++ ['2'])
      partRelease true = partRelease ++ ['1'] := by decide

example :
    parseCore
      (['A', 'p', 'p', 's', '/'] ++ partRelease ++ ['1', '/'] ++ partPhase ++ ['2'])
      partRelease false = ['A', 'p', 'p', 's', '/'] ++ partRelease ++ ['1'] := by decide

example :
    parseCore
      (['A', 'p', 'p', 's', '/'] ++ partRelease ++ ['1', '/'] ++ partPhase ++ ['2'])
      partPhase true = partPhase ++ ['2'] := by decide

example : parseCore ['a', 'b', 'c'] partRelease false = ['a', 'b', 'c', '/'] := by decide

/-! Basic lemmas about the two substitution cores. -/

theorem lastOnlyAux_nondelim (p : List Char) (c : Char) (rest : List Char)
    (hc : isDelim c = false) : lastOnlyAux p (c :: rest) = lastOnlyAux p rest := by
  cases h : lastOnlyAux p rest with
  | some r => simp [lastOnlyAux, h]
  | none => simp [lastOnlyAux, h, hc]

theorem lastOnlyAux_append_some (p : List Char) (x : List Char) {y r : List Char}
    (h : lastOnlyAux p y = some r) : lastOnlyAux p (x ++ y) = some r := by
  induction x with
  | nil => simpa using h
  | cons c cs ih => simp [lastOnlyAux, ih]

theorem lastOnlyAux_skip (p : List Char) {w : List Char} (v : List Char)
    (hw : ∀ c ∈ w, isDelim c = false) :
    lastOnlyAux p (w ++ v) = lastOnlyAux p v := by
  induction w with
  | nil => simp
  | cons c cs ih =>
    have hc : isDelim c = false := hw c (by simp)
    have ih2 := ih (fun a ha => hw a (by simp [ha]))
    simpa [lastOnlyAux_nondelim p c (cs ++ v) hc] using ih2

theorem lastOnlyAux_single_delim (p : List Char) (e : Char)
    (hp : p ≠ []) : lastOnlyAux p [e] = none := by
  cases p with
  | nil => exact absurd rfl hp
  | cons a as => simp [lastOnlyAux, List.isPrefixOf]

theorem partRelease_nondelim : ∀ c ∈ partRelease, isDelim c = false := by decide

theorem partRelease_ne_nil : partRelease ≠ [] := by decide

/-- A pattern with no delimiter characters that is a prefix of
`seg ++ d :: junk`, where `d` is a delimiter, must already be a prefix of
`seg`: it cannot span across the delimiter. -/
theorem isPrefixOf_stops_at_delim (d : Char) (hd : isDelim d = true) :
    ∀ (seg p junk : List Char), (∀ c ∈ p, isDelim c = false) →
      p.isPrefixOf (seg ++ d :: junk) = true → p <+: seg := by
  intro seg
  induction seg with
  | nil =>
    intro p junk hp h
    cases p with
    | nil => exact ⟨[], rfl⟩
    | cons a as =>
      simp only [List.nil_append, List.isPrefixOf, Bool.and_eq_true, beq_iff_eq] at h
      have : isDelim a = false := hp a (by simp)
      rw [h.1] at this
      rw [hd] at this
      cases this
  | cons b bs ih =>
    intro p junk hp h
    cases p with
    | nil => exact ⟨b :: bs, rfl⟩
    | cons a as =>
      simp only [List.cons_append, List.isPrefixOf, Bool.and_eq_true, beq_iff_eq] at h
      have h2 : as <+: bs := ih as junk (fun c hc => hp c (by simp [hc])) h.2
      obtain ⟨u, hu⟩ := h2
      exact ⟨u, by simp [h.1, hu]⟩

theorem takeWhile_nondelim_stops (t : List Char) (d : Char) (v : List Char)
    (ht : ∀ c ∈ t, isDelim c = false) (hd : isDelim d = true) :
    (t ++ d :: v).takeWhile (fun ch => !isDelim ch) = t := by
  induction t with
  | nil => simp [List.takeWhile, hd]
  | cons c cs ih =>
    have hc : isDelim c = false := ht c (by simp)
    have ih2 := ih (fun a ha => ht a (by simp [ha]))
    simp [List.takeWhile, hc, ih2]

/-- The two substitution cores match at exactly the same positions: one
finds a match if and only if the other one does. -/
theorem keepUpToAux_none_iff (p : List Char) :
    ∀ s : List Char, keepUpToAux p s = none ↔ lastOnlyAux p s = none := by
  intro s
  induction s with
  | nil => simp [keepUpToAux, lastOnlyAux]
  | cons c rest ih =>
    cases h1 : lastOnlyAux p rest with
    | some r =>
      have h2 : keepUpToAux p rest ≠ none := by
        intro hk
        exact absurd (ih.mp hk) (by simp [h1])
      cases h2x : keepUpToAux p rest with
      | none => exact absurd h2x h2
      | some q => simp [keepUpToAux, lastOnlyAux, h1, h2x]
    | none =>
      have h2 : keepUpToAux p rest = none := ih.mpr h1
      by_cases hc : (isDelim c && p.isPrefixOf rest) = true
      · simp [keepUpToAux, lastOnlyAux, h1, h2, hc]
      · simp only [Bool.not_eq_true] at hc
        simp [keepUpToAux, lastOnlyAux, h1, h2, hc]

/-- Whatever `keepUpToAux` returns is a prefix of its input string. -/
theorem keepUpToAux_returns_front (p : List Char) :
    ∀ s r : List Char, keepUpToAux p s = some r → r <+: s := by
  intro s
  induction s with
  | nil => intro r h; simp [keepUpToAux] at h
  | cons c rest ih =>
    intro r h
    cases h1 : keepUpToAux p rest with
    | some q =>
      rw [keepUpToAux, h1] at h
      obtain ⟨u, hu⟩ := ih q h1
      cases h
      exact ⟨u, by simp [hu]⟩
    | none =>
      rw [keepUpToAux, h1] at h
      by_cases hc : (isDelim c && p.isPrefixOf rest) = true
      · rw [if_pos hc] at h
        cases h
        have hpre : p <+: rest := by
          have := (Bool.and_eq_true _ _).mp hc
          exact List.isPrefixOf_iff_prefix.mp this.2
        obtain ⟨u, hu⟩ := hpre
        refine ⟨(rest.drop p.length).dropWhile (fun ch => !isDelim ch), ?_⟩
        have hdrop : rest.drop p.length = u := by
          rw [← hu, List.drop_left]
        simp only [List.cons_append, List.cons.injEq, true_and, List.append_assoc]
        rw [List.takeWhile_append_dropWhile, hdrop, hu]
      · rw [if_neg hc] at h
        cases h

/-- When the last-segment substitution finds a match, the keep-up-to
substitution finds the same match and returns it with everything before it
prepended. -/
theorem keepUpToAux_extends_lastOnly (p : List Char) :
    ∀ s r : List Char, lastOnlyAux p s = some r →
      ∃ q : List Char, keepUpToAux p s = some (q ++ r) := by
  intro s
  induction s with
  | nil => intro r h; simp [lastOnlyAux] at h
  | cons c rest ih =>
    intro r h
    cases h1 : lastOnlyAux p rest with
    | some q =>
      rw [lastOnlyAux, h1] at h
      cases h
      obtain ⟨q2, hq2⟩ := ih r h1
      exact ⟨c :: q2, by simp [keepUpToAux, hq2]⟩
    | none =>
      rw [lastOnlyAux, h1] at h
      have h2 : keepUpToAux p rest = none := (keepUpToAux_none_iff p rest).mpr h1
      by_cases hc : (isDelim c && p.isPrefixOf rest) = true
      · rw [if_pos hc] at h
        cases h
        exact ⟨[c], by simp [keepUpToAux, h2, hc]⟩
      · rw [if_neg hc] at h
        cases h

/-! Composite identifiers as sequences of delimiter-separated segments. -/

/-- A composite identifier built from segments joined by `'/'`, the path
separator of the XL Release identifiers handled by the script (see the
example identifier quoted at source lines 56–58). -/
def joinSegs : List (List Char) → List Char
  | [] => []
  | [seg] => seg
  | seg :: rest => seg ++ '/' :: joinSegs rest

/-- The tail of a joined segment list: each remaining segment preceded by
its separating `'/'`. -/
def segTail : List (List Char) → List Char
  | [] => []
  | seg :: rest => '/' :: (seg ++ segTail rest)

theorem joinSegs_cons (rel : List Char) (post : List (List Char)) :
    joinSegs (rel :: post) = rel ++ segTail post := by
  induction post generalizing rel with
  | nil => simp [joinSegs, segTail]
  | cons s rest ih => simp [joinSegs, segTail, ih s]

theorem joinSegs_decomp (pre : List (List Char)) (rel : List Char)
    (post : List (List Char)) (h : pre ≠ []) :
    joinSegs (pre ++ rel :: post)
      = joinSegs pre ++ '/' :: (rel ++ segTail post) := by
  induction pre with
  | nil => exact absurd rfl h
  | cons x xs ih =>
    cases xs with
    | nil => simp [joinSegs, joinSegs_cons]
    | cons y ys =>
      have ihx := ih (by simp)
      simp only [List.cons_append] at ihx ⊢
      simp only [joinSegs]
      rw [ihx]
      simp [List.append_assoc]

theorem segTail_cons_delim (post : List (List Char)) (e : Char)
    (he : isDelim e = true) :
    ∃ dh : Char, ∃ v : List Char,
      segTail post ++ [e] = dh :: v ∧ isDelim dh = true := by
  cases post with
  | nil => exact ⟨e, [], by simp [segTail], he⟩
  | cons s rest => exact ⟨'/', s ++ segTail rest ++ [e], by simp [segTail], by decide⟩

/-- No match occurs anywhere inside the joined tail of a segment list whose
segments are delimiter-free and do not start with the pattern, even with a
final sentinel delimiter appended. -/
theorem lastOnlyAux_segTail_none (p : List Char) (hp : p ≠ [])
    (hpd : ∀ c ∈ p, isDelim c = false) (e : Char) (he : isDelim e = true) :
    ∀ post : List (List Char),
      (∀ seg ∈ post, (∀ c ∈ seg, isDelim c = false) ∧ ¬ p <+: seg) →
      lastOnlyAux p (segTail post ++ [e]) = none := by
  intro post
  induction post with
  | nil => simpa [segTail] using lastOnlyAux_single_delim p e hp
  | cons seg rest ih =>
    intro hsegs
    have hseg := hsegs seg (by simp)
    have hrest := ih (fun s hs => hsegs s (by simp [hs]))
    have hskip : lastOnlyAux p (seg ++ (segTail rest ++ [e]))
        = lastOnlyAux p (segTail rest ++ [e]) :=
      lastOnlyAux_skip p (segTail rest ++ [e]) hseg.1
    have hnomatch : p.isPrefixOf (seg ++ (segTail rest ++ [e])) = false := by
      by_contra hx
      simp only [Bool.not_eq_false] at hx
      obtain ⟨dh, v, hv, hdh⟩ := segTail_cons_delim rest e he
      rw [hv] at hx
      exact hseg.2 (isPrefixOf_stops_at_delim dh hdh seg p v hpd hx)
    have : segTail (seg :: rest) ++ [e] = '/' :: (seg ++ (segTail rest ++ [e])) := by
      simp [segTail]
    rw [this, lastOnlyAux, hskip, hrest, hnomatch]
    simp

/-- The match lemma: at a delimiter followed by the pattern, a
delimiter-free run, and then a delimiter, the last-segment substitution
captures exactly the pattern with its run — provided nothing later
matches. -/
theorem lastOnlyAux_found (p t : List Char) (d : Char) (v : List Char)
    (hd : isDelim d = true)
    (ht : ∀ c ∈ t, isDelim c = false)
    (hv : lastOnlyAux p (p ++ (t ++ v)) = none)
    (hvh : ∃ dh : Char, ∃ vt : List Char, v = dh :: vt ∧ isDelim dh = true) :
    lastOnlyAux p (d :: (p ++ (t ++ v))) = some (p ++ t) := by
  obtain ⟨dh, vt, hveq, hdh⟩ := hvh
  have hpref : p.isPrefixOf (p ++ (t ++ v)) = true :=
    List.isPrefixOf_iff_prefix.mpr ⟨t ++ v, rfl⟩
  have hdrop : (p ++ (t ++ v)).drop p.length = t ++ v := List.drop_left p (t ++ v)
  have hrun : (t ++ v).takeWhile (fun ch => !isDelim ch) = t := by
    rw [hveq]
    exact takeWhile_nondelim_stops t dh vt ht hdh
  rw [lastOnlyAux, hv, hd, hpref]
  simp [hdrop, hrun]

/-! Splitting an arbitrary string into its delimiter-separated segments. -/

/-- The delimiter-separated segments of a string: maximal runs of
non-delimiter characters (a trailing or leading delimiter contributes an
empty segment, and so does every pair of adjacent delimiters). -/
def segmentsOf : List Char → List (List Char)
  | [] => [[]]
  | c :: rest =>
    if isDelim c then [] :: segmentsOf rest
    else
      match segmentsOf rest with
      | seg :: segs => (c :: seg) :: segs
      | [] => [[c]]

theorem segmentsOf_head (s : List Char) :
    ∃ segs : List (List Char),
      segmentsOf s = (s.takeWhile fun c => !isDelim c) :: segs := by
  induction s with
  | nil => exact ⟨[], rfl⟩
  | cons c rest ih =>
    obtain ⟨segs, hsegs⟩ := ih
    by_cases hc : isDelim c
    · exact ⟨segmentsOf rest, by simp [segmentsOf, hc, List.takeWhile]⟩
    · refine ⟨segs, ?_⟩
      have hb : isDelim c = false := by simpa using hc
      simp [segmentsOf, hb, hsegs, List.takeWhile]

/-- A delimiter-free pattern that is a prefix of a string is a prefix of
the string's first segment. -/
theorem prefix_of_firstSeg (p : List Char) (hpd : ∀ c ∈ p, isDelim c = false) :
    ∀ s : List Char, p <+: s → p <+: (s.takeWhile fun c => !isDelim c) := by
  induction p with
  | nil => intro s _; exact ⟨_, rfl⟩
  | cons a as ih =>
    intro s hp
    obtain ⟨u, hu⟩ := hp
    have ha : isDelim a = false := hpd a (by simp)
    have htail : as <+: (as ++ u).takeWhile fun c => !isDelim c :=
      ih (fun c hc => hpd c (by simp [hc])) (as ++ u) ⟨u, rfl⟩
    obtain ⟨v, hv⟩ := htail
    refine ⟨v, ?_⟩
    rw [← hu]
    simp [List.takeWhile, ha, hv]

/-- If no delimiter-preceded segment of a string has the (nonempty,
delimiter-free) pattern as a prefix, the substitution pattern never
matches. -/
theorem lastOnlyAux_none_of_no_seg (p : List Char)
    (hpd : ∀ c ∈ p, isDelim c = false) :
    ∀ s : List Char, (∀ seg ∈ (segmentsOf s).drop 1, ¬ p <+: seg) →
      lastOnlyAux p s = none := by
  intro s
  induction s with
  | nil => intro _; rfl
  | cons c rest ih =>
    intro hs
    by_cases hc : isDelim c
    · have hsplit : segmentsOf (c :: rest) = [] :: segmentsOf rest := by
        simp [segmentsOf, hc]
      rw [hsplit] at hs
      simp only [List.drop_one, List.tail_cons] at hs
      have hrest : lastOnlyAux p rest = none := by
        refine ih ?_
        intro seg hseg
        exact hs seg (List.mem_of_mem_drop hseg)
      have hnopref : p.isPrefixOf rest = false := by
        by_contra hx
        simp only [Bool.not_eq_false, List.isPrefixOf_iff_prefix] at hx
        obtain ⟨segs, hsegs⟩ := segmentsOf_head rest
        have hfirst : p <+: (rest.takeWhile fun ch => !isDelim ch) :=
          prefix_of_firstSeg p hpd rest hx
        exact hs _ (by rw [hsegs]; simp) hfirst
      rw [lastOnlyAux, hrest, hnopref]
      simp
    · have hb : isDelim c = false := by simpa using hc
      rw [lastOnlyAux_nondelim p c rest hb]
      refine ih ?_
      intro seg hseg
      refine hs seg ?_
      obtain ⟨segs, hsegs⟩ := segmentsOf_head rest
      have hsplit : segmentsOf (c :: rest)
          = (c :: (rest.takeWhile fun ch => !isDelim ch)) :: segs := by
        simp [segmentsOf, hb, hsegs]
      rw [hsplit]
      rw [hsegs] at hseg
      simpa using hseg

/-- Appending a single delimiter character to a string appends one empty
segment to its segment list. -/
theorem segmentsOf_append_delim (d : Char) (hd : isDelim d = true) :
    ∀ s : List Char, segmentsOf (s ++ [d]) = segmentsOf s ++ [[]] := by
  intro s
  induction s with
  | nil => simp [segmentsOf, hd]
  | cons c rest ih =>
    by_cases hc : isDelim c
    · simp [segmentsOf, hc, ih]
    · have hb : isDelim c = false := by simpa using hc
      obtain ⟨segs, hsegs⟩ := segmentsOf_head rest
      have : segmentsOf (rest ++ [d]) = segmentsOf rest ++ [[]] := ih
      rw [hsegs] at this
      simp [segmentsOf, hb, hsegs, this]

/-! The sentinel character. -/

theorem sentinelChar_isDelim (ident : List Char) :
    isDelim (sentinelChar ident) = true := by
  rw [sentinelChar]
  split
  · rfl
  · rfl

theorem sentinelChar_no_hyphen (ident : List Char) (h : '-' ∉ ident) :
    sentinelChar ident = '/' := by
  have hidx : ident.findIdx (fun c => c == '-') = ident.length := by
    induction ident with
    | nil => rfl
    | cons c rest ih =>
      have hc : (c == '-') = false := by
        simp only [beq_eq_false_iff_ne, ne_eq]
        intro hx
        exact h (by simp [hx])
      rw [List.findIdx_cons, hc]
      simp only [cond_false, List.length_cons]
      rw [ih (fun hx => h (by simp [hx]))]
  rw [sentinelChar, hidx]
  simp

theorem mem_joinSegs (c : Char) :
    ∀ segs : List (List Char), c ∈ joinSegs segs →
      c = '/' ∨ ∃ seg ∈ segs, c ∈ seg := by
  intro segs
  induction segs with
  | nil => intro h; simp [joinSegs] at h
  | cons seg rest ih =>
    intro h
    rw [joinSegs_cons] at h
    rcases List.mem_append.mp h with h1 | h2
    · exact Or.inr ⟨seg, by simp, h1⟩
    · cases rest with
      | nil => simp [segTail] at h2
      | cons s2 r2 =>
        simp only [segTail, List.mem_cons] at h2
        rcases h2 with h2a | h2b
        · exact Or.inl h2a
        · have hrest : c ∈ joinSegs (s2 :: r2) := by rw [joinSegs_cons]; exact h2b
          rcases ih hrest with h3 | ⟨s3, hs3, hc3⟩
          · exact Or.inl h3
          · exact Or.inr ⟨s3, by simp [hs3], hc3⟩

/-! The `Release` data model (source lines 132–138). -/

/-- The two id fields set by `Release.__init__`: `id_long` keeps the raw
id received from the server JSON, and `id` is re-derived from it via
`u_parse_xlr_id(self.id_long, "Release", last_part_only=True)`.  Because
`"Release"` is a recognized part name that call never exits, so the model
uses `parseCore` directly.  (The constructor's `active_tasks` HTTP fetch
carries no information about the id fields and is outside this data
model.) -/
structure XlrRelease where
  id_long : List Char
  id : List Char

/-- `Release.__init__` restricted to its id fields (source lines 135–136). -/
def releaseInit (rawId : List Char) : XlrRelease :=
  { id_long := rawId, id := parseCore rawId partRelease true }

/-! Claim theorems about the identifier parser. -/

/-- C9: for every part name that is not one of the three recognized kinds
("Release", "Phase", "Task"), `u_parse_xlr_id` logs an error and
terminates the process with a non-zero exit status — modelled as
`Except.error ()` — and never returns a value. -/
theorem u_parse_xlr_id_invalid_part_exits (ident p : List Char) (lpo : Bool)
    (h1 : p ≠ partRelease) (h2 : p ≠ partPhase) (h3 : p ≠ partTask) :
    u_parse_xlr_id ident p lpo = Except.error () := by
  have hno : ¬ (p = partRelease ∨ p = partPhase ∨ p = partTask) := by
    rintro (h | h | h)
    exacts [h1 h, h2 h, h3 h]
  rw [u_parse_xlr_id, if_neg hno]

theorem u_parse_xlr_id_invalid_part_exits_witness :
    (['F', 'o', 'o'] : List Char) ≠ partRelease
    ∧ (['F', 'o', 'o'] : List Char) ≠ partPhase
    ∧ (['F', 'o', 'o'] : List Char) ≠ partTask
    ∧ u_parse_xlr_id ['i', 'd'] ['F', 'o', 'o'] false = Except.error () :=
  ⟨by decide, by decide, by decide,
    u_parse_xlr_id_invalid_part_exits ['i', 'd'] ['F', 'o', 'o'] false
      (by decide) (by decide) (by decide)⟩

/-- C3 counterexample: for the id "abc" — none of whose segments starts
with "Release" — the parser returns "abc/", the input with the sentinel
delimiter appended, and NOT the unmodified input "abc" as claimed. -/
theorem u_parse_xlr_id_fallthrough_cex :
    u_parse_xlr_id ['a', 'b', 'c'] partRelease false ≠ Except.ok ['a', 'b', 'c'] := by
  intro h
  rw [u_parse_xlr_id, if_pos (Or.inl rfl)] at h
  exact absurd (Except.ok.inj h) (by decide)

/-- C3 (amended): for every input id and recognized part name such that no
segment of the id starts with that part name, `u_parse_xlr_id` returns the
input with the sentinel delimiter appended (the non-matching pattern falls
through to the string as modified by the sentinel-append step), rather
than the unmodified input. -/
theorem u_parse_xlr_id_fallthrough (ident p : List Char) (lpo : Bool)
    (hpart : p = partRelease ∨ p = partPhase ∨ p = partTask)
    (hseg : ∀ seg ∈ segmentsOf ident, ¬ p <+: seg) :
    u_parse_xlr_id ident p lpo = Except.ok (ident ++ [sentinelChar ident]) := by
  have hpd : ∀ c ∈ p, isDelim c = false := by
    rcases hpart with h | h | h <;> subst h <;> decide
  have hne : p ≠ [] := by
    rcases hpart with h | h | h <;> subst h <;> decide
  have hsegS : segmentsOf (ident ++ [sentinelChar ident])
      = segmentsOf ident ++ [[]] :=
    segmentsOf_append_delim (sentinelChar ident) (sentinelChar_isDelim ident) ident
  have hnone : lastOnlyAux p (ident ++ [sentinelChar ident]) = none := by
    refine lastOnlyAux_none_of_no_seg p hpd _ ?_
    intro seg hmem
    rw [hsegS] at hmem
    rcases List.mem_append.mp (List.mem_of_mem_drop hmem) with hA | hB
    · exact hseg seg hA
    · have hB2 : seg = [] := by simpa using hB
      subst hB2
      intro hcontra
      exact hne (List.prefix_nil.mp hcontra)
  have hkeep : keepUpToAux p (ident ++ [sentinelChar ident]) = none :=
    (keepUpToAux_none_iff p _).mpr hnone
  rw [u_parse_xlr_id, if_pos hpart, parseCore]
  cases lpo with
  | false => simp [subKeepUpTo, hkeep]
  | true => simp [subLastOnly, hnone]

theorem u_parse_xlr_id_fallthrough_witness :
    ((partRelease = partRelease ∨ partRelease = partPhase ∨ partRelease = partTask)
      ∧ (∀ seg ∈ segmentsOf ['a', 'b', 'c'], ¬ partRelease <+: seg))
    ∧ u_parse_xlr_id ['a', 'b', 'c'] partRelease true
        = Except.ok (['a', 'b', 'c'] ++ [sentinelChar ['a', 'b', 'c']]) :=
  ⟨⟨Or.inl rfl, by decide⟩,
    u_parse_xlr_id_fallthrough ['a', 'b', 'c'] partRelease true (Or.inl rfl) (by decide)⟩

/-- C2 counterexample: for the composite id "Release1/Phase2" — made of
the delimiter-separated segments "Release1" and "Phase2", whose trailing
Release-initial segment is the leading segment — parsing for part
"Release" with last_part_only=True does not return that segment
"Release1": the regex requires a delimiter before the segment, so the
pattern falls through. -/
theorem u_parse_xlr_id_last_release_cex :
    u_parse_xlr_id (joinSegs [partRelease ++ ['1'], partPhase ++ ['2']])
        partRelease true
      ≠ Except.ok (partRelease ++ ['1']) := by
  intro h
  rw [u_parse_xlr_id, if_pos (Or.inl rfl)] at h
  exact absurd (Except.ok.inj h) (by decide)

/-- C2 (amended): for every composite id of delimiter-separated,
delimiter-free segments in which some non-leading segment starts with
"Release" and no later segment does, calling the parser with part
"Release" and last_part_only=True returns exactly that trailing
Release-initial segment, regardless of how many Phase or Task segments
follow it.  (As stated the claim additionally covers ids whose only
Release-initial segment is the very first one, where the parser instead
falls through — see the counterexample.) -/
theorem u_parse_xlr_id_last_release_segment
    (pre post : List (List Char)) (t : List Char)
    (hpre : pre ≠ [])
    (hpresegs : ∀ seg ∈ pre, ∀ c ∈ seg, isDelim c = false)
    (ht : ∀ c ∈ t, isDelim c = false)
    (hpost : ∀ seg ∈ post, (∀ c ∈ seg, isDelim c = false) ∧ ¬ partRelease <+: seg) :
    u_parse_xlr_id (joinSegs (pre ++ (partRelease ++ t) :: post)) partRelease true
      = Except.ok (partRelease ++ t) := by
  have hreldf : ∀ c ∈ partRelease ++ t, isDelim c = false := by
    intro c hc
    rcases List.mem_append.mp hc with h | h
    · exact partRelease_nondelim c h
    · exact ht c h
  have hnohyph : '-' ∉ joinSegs (pre ++ (partRelease ++ t) :: post) := by
    intro hmem
    rcases mem_joinSegs '-' _ hmem with h | ⟨seg, hsegmem, hcs⟩
    · exact absurd h (by decide)
    · have hdf : ∀ c ∈ seg, isDelim c = false := by
        rcases List.mem_append.mp hsegmem with h2 | h2
        · exact hpresegs seg h2
        · rcases List.mem_cons.mp h2 with h3 | h3
          · subst h3; exact hreldf
          · exact (hpost seg h3).1
      exact absurd (hdf '-' hcs) (by decide)
  have hsent : sentinelChar (joinSegs (pre ++ (partRelease ++ t) :: post)) = '/' :=
    sentinelChar_no_hyphen _ hnohyph
  have hdec : joinSegs (pre ++ (partRelease ++ t) :: post)
      = joinSegs pre ++ '/' :: ((partRelease ++ t) ++ segTail post) :=
    joinSegs_decomp pre (partRelease ++ t) post hpre
  have hstring : joinSegs (pre ++ (partRelease ++ t) :: post) ++ ['/']
      = joinSegs pre
          ++ '/' :: (partRelease ++ (t ++ (segTail post ++ ['/']))) := by
    rw [hdec]
    simp [List.append_assoc]
  have hv : lastOnlyAux partRelease (partRelease ++ (t ++ (segTail post ++ ['/'])))
      = none := by
    rw [lastOnlyAux_skip partRelease _ partRelease_nondelim,
      lastOnlyAux_skip partRelease _ ht]
    exact lastOnlyAux_segTail_none partRelease partRelease_ne_nil
      partRelease_nondelim '/' (by decide) post hpost
  have hfound : lastOnlyAux partRelease
      ('/' :: (partRelease ++ (t ++ (segTail post ++ ['/']))))
      = some (partRelease ++ t) :=
    lastOnlyAux_found partRelease t '/' (segTail post ++ ['/']) (by decide) ht hv
      (segTail_cons_delim post '/' (by decide))
  have hsome : lastOnlyAux partRelease
      (joinSegs (pre ++ (partRelease ++ t) :: post) ++ ['/'])
      = some (partRelease ++ t) := by
    rw [hstring]
    exact lastOnlyAux_append_some partRelease (joinSegs pre) hfound
  rw [u_parse_xlr_id, if_pos (Or.inl rfl), parseCore, hsent]
  simp only [if_true]
  rw [subLastOnly, hsome]
  rfl

theorem u_parse_xlr_id_last_release_segment_witness :
    (([['A', 'p', 'p', 's']] : List (List Char)) ≠ []
      ∧ (∀ seg ∈ ([['A', 'p', 'p', 's']] : List (List Char)), ∀ c ∈ seg, isDelim c = false)
      ∧ (∀ c ∈ (['1'] : List Char), isDelim c = false)
      ∧ (∀ seg ∈ ([partPhase ++ ['2'], partTask ++ ['3']] : List (List Char)),
          (∀ c ∈ seg, isDelim c = false) ∧ ¬ partRelease <+: seg))
    ∧ u_parse_xlr_id
        (joinSegs ([['A', 'p', 'p', 's']]
          ++ (partRelease ++ ['1']) :: [partPhase ++ ['2'], partTask ++ ['3']]))
        partRelease true
      = Except.ok (partRelease ++ ['1']) :=
  ⟨⟨by decide, by decide, by decide, by decide⟩,
    u_parse_xlr_id_last_release_segment [['A', 'p', 'p', 's']]
      [partPhase ++ ['2'], partTask ++ ['3']] ['1']
      (by decide) (by decide) (by decide) (by decide)⟩

/-- C7: for every id and part for which both parser calls return a value,
the last_part_only=False result ends with — has as a suffix — the
last_part_only=True result, and the False result is an initial portion of
the sentinel-extended id: everything from the start of the id up to and
including the same final matched segment. -/
theorem u_parse_xlr_id_false_extends_true (ident p r1 r2 : List Char)
    (h1 : u_parse_xlr_id ident p false = Except.ok r1)
    (h2 : u_parse_xlr_id ident p true = Except.ok r2) :
    r2 <:+ r1 ∧ r1 <+: ident ++ [sentinelChar ident] := by
  by_cases hpart : p = partRelease ∨ p = partPhase ∨ p = partTask
  · rw [u_parse_xlr_id, if_pos hpart, parseCore] at h1 h2
    simp only [if_true, if_false, Bool.false_eq_true, ite_false, ite_true] at h1 h2
    have hr1 : subKeepUpTo (ident ++ [sentinelChar ident]) p = r1 := Except.ok.inj h1
    have hr2 : subLastOnly (ident ++ [sentinelChar ident]) p = r2 := Except.ok.inj h2
    cases haux : lastOnlyAux p (ident ++ [sentinelChar ident]) with
    | none =>
      have hk : keepUpToAux p (ident ++ [sentinelChar ident]) = none :=
        (keepUpToAux_none_iff p _).mpr haux
      rw [subKeepUpTo, hk] at hr1
      rw [subLastOnly, haux] at hr2
      simp only [Option.getD_none] at hr1 hr2
      rw [← hr1, ← hr2]
      exact ⟨List.suffix_refl _, List.prefix_refl _⟩
    | some r =>
      obtain ⟨q, hq⟩ := keepUpToAux_extends_lastOnly p _ r haux
      rw [subKeepUpTo, hq] at hr1
      rw [subLastOnly, haux] at hr2
      simp only [Option.getD_some] at hr1 hr2
      constructor
      · rw [← hr1, ← hr2]
        exact ⟨q, rfl⟩
      · rw [← hr1]
        exact keepUpToAux_returns_front p _ _ hq
  · rw [u_parse_xlr_id, if_neg hpart] at h1
    exact absurd h1 (by simp)

theorem u_parse_xlr_id_false_extends_true_witness :
    u_parse_xlr_id
        ['A', 'p', 'p', 's', '/', 'R', 'e', 'l', 'e', 'a', 's', 'e', '1', '/',
          'P', 'h', 'a', 's', 'e', '2'] partRelease false
      = Except.ok ['A', 'p', 'p', 's', '/', 'R', 'e', 'l', 'e', 'a', 's', 'e', '1']
    ∧ u_parse_xlr_id
        ['A', 'p', 'p', 's', '/', 'R', 'e', 'l', 'e', 'a', 's', 'e', '1', '/',
          'P', 'h', 'a', 's', 'e', '2'] partRelease true
      = Except.ok ['R', 'e', 'l', 'e', 'a', 's', 'e', '1']
    ∧ (['R', 'e', 'l', 'e', 'a', 's', 'e', '1']
        <:+ ['A', 'p', 'p', 's', '/', 'R', 'e', 'l', 'e', 'a', 's', 'e', '1']
      ∧ ['A', 'p', 'p', 's', '/', 'R', 'e', 'l', 'e', 'a', 's', 'e', '1']
        <+: ['A', 'p', 'p', 's', '/', 'R', 'e', 'l', 'e', 'a', 's', 'e', '1', '/',
              'P', 'h', 'a', 's', 'e', '2']
            ++ [sentinelChar
                ['A', 'p', 'p', 's', '/', 'R', 'e', 'l', 'e', 'a', 's', 'e', '1', '/',
                  'P', 'h', 'a', 's', 'e', '2']]) :=
  ⟨by rfl, by rfl,
    u_parse_xlr_id_false_extends_true
      ['A', 'p', 'p', 's', '/', 'R', 'e', 'l', 'e', 'a', 's', 'e', '1', '/',
        'P', 'h', 'a', 's', 'e', '2'] partRelease
      ['A', 'p', 'p', 's', '/', 'R', 'e', 'l', 'e', 'a', 's', 'e', '1']
      ['R', 'e', 'l', 'e', 'a', 's', 'e', '1'] (by rfl) (by rfl)⟩

/-- C4 counterexample: a Release constructed from the bare raw id
"Release1" — no delimiter precedes its Release segment — derives the short
id "Release1/" (the sentinel-extended fallthrough), which is neither a
suffix nor a substring of id_long, and is strictly longer than it. -/
theorem releaseInit_id_not_suffix_cex :
    ¬ ((releaseInit (partRelease ++ ['1'])).id
        <:+ (releaseInit (partRelease ++ ['1'])).id_long)
    ∧ ¬ ((releaseInit (partRelease ++ ['1'])).id
        <:+: (releaseInit (partRelease ++ ['1'])).id_long)
    ∧ (releaseInit (partRelease ++ ['1'])).id_long.length
        < (releaseInit (partRelease ++ ['1'])).id.length := by
  exact ⟨by decide, by decide, by decide⟩

/-- C4 (amended): for every Release whose raw id ends in a
delimiter-preceded, delimiter-free Release segment — the shape of every id
the search endpoint returns — the derived `id` equals that final segment
and is a strict suffix-substring of `id_long`.  (The unrestricted claim
fails on degenerate raw ids whose Release segment has no preceding
delimiter; see the counterexample.) -/
theorem releaseInit_id_strict_suffix (pre t : List Char) (d : Char)
    (hd : isDelim d = true) (ht : ∀ c ∈ t, isDelim c = false) :
    (releaseInit (pre ++ d :: (partRelease ++ t))).id = partRelease ++ t
    ∧ (releaseInit (pre ++ d :: (partRelease ++ t))).id
        <:+ (releaseInit (pre ++ d :: (partRelease ++ t))).id_long
    ∧ (releaseInit (pre ++ d :: (partRelease ++ t))).id.length
        < (releaseInit (pre ++ d :: (partRelease ++ t))).id_long.length := by
  have hstring : (pre ++ d :: (partRelease ++ t))
        ++ [sentinelChar (pre ++ d :: (partRelease ++ t))]
      = pre ++ d :: (partRelease
          ++ (t ++ [sentinelChar (pre ++ d :: (partRelease ++ t))])) := by
    simp [List.append_assoc]
  have hv : lastOnlyAux partRelease
      (partRelease ++ (t ++ [sentinelChar (pre ++ d :: (partRelease ++ t))]))
      = none := by
    rw [lastOnlyAux_skip partRelease _ partRelease_nondelim,
      lastOnlyAux_skip partRelease _ ht]
    exact lastOnlyAux_single_delim partRelease _ partRelease_ne_nil
  have hfound : lastOnlyAux partRelease
      (d :: (partRelease ++ (t ++ [sentinelChar (pre ++ d :: (partRelease ++ t))])))
      = some (partRelease ++ t) :=
    lastOnlyAux_found partRelease t d _ hd ht hv
      ⟨sentinelChar (pre ++ d :: (partRelease ++ t)), [], rfl,
        sentinelChar_isDelim _⟩
  have hid : (releaseInit (pre ++ d :: (partRelease ++ t))).id = partRelease ++ t := by
    show parseCore (pre ++ d :: (partRelease ++ t)) partRelease true = partRelease ++ t
    rw [parseCore]
    simp only [if_true]
    rw [subLastOnly, hstring]
    rw [lastOnlyAux_append_some partRelease pre hfound]
    rfl
  refine ⟨hid, ?_, ?_⟩
  · rw [hid]
    show partRelease ++ t <:+ pre ++ d :: (partRelease ++ t)
    exact ⟨pre ++ [d], by simp⟩
  · rw [hid]
    show (partRelease ++ t).length < (pre ++ d :: (partRelease ++ t)).length
    simp only [List.length_append, List.length_cons]
    omega

theorem releaseInit_id_strict_suffix_witness :
    (isDelim '/' = true ∧ (∀ c ∈ (['9'] : List Char), isDelim c = false))
    ∧ ((releaseInit (['A'] ++ '/' :: (partRelease ++ ['9']))).id = partRelease ++ ['9']
      ∧ (releaseInit (['A'] ++ '/' :: (partRelease ++ ['9']))).id
          <:+ (releaseInit (['A'] ++ '/' :: (partRelease ++ ['9']))).id_long
      ∧ (releaseInit (['A'] ++ '/' :: (partRelease ++ ['9']))).id.length
          < (releaseInit (['A'] ++ '/' :: (partRelease ++ ['9']))).id_long.length) :=
  ⟨⟨by decide, by decide⟩,
    releaseInit_id_strict_suffix ['A'] ['9'] '/' (by decide) (by decide)⟩

/-! The report builder `Release.get_md_from_releases` (source lines
149–174). -/

/-- One attempt to match the pattern `\d*A\d*-` of
`re.sub(r"\d*A\d*-", r"", release.title)` (source line 159) at the start
of a string: a maximal digit run, the letter `A`, a maximal digit run and
a hyphen.  Returns the remainder after the match, or `none`.  Because `A`
and `-` are not digits the greedy `\d*` runs never backtrack, so this is
exactly the regex's behaviour. -/
def matchTicket (s : List Char) : Option (List Char) :=
  match s.dropWhile Char.isDigit with
  | 'A' :: s2 =>
    match s2.dropWhile Char.isDigit with
    | '-' :: s4 => some s4
    | _ => none
  | _ => none

/-- `re.sub(r"\d*A\d*-", r"", title)`: delete every non-overlapping,
leftmost-first occurrence of the ticket-number pattern.  Each step of the
scan consumes at least one character, so fuel equal to the string length
always suffices. -/
def stripTicketFuel : Nat → List Char → List Char
  | 0, s => s
  | _ + 1, [] => []
  | fuel + 1, c :: rest =>
    match matchTicket (c :: rest) with
    | some s4 => stripTicketFuel fuel s4
    | none => c :: stripTicketFuel fuel rest

/-- The title cleanup of source line 159. -/
def stripTicket (s : List Char) : List Char := stripTicketFuel s.length s

example : stripTicket ['2', '2', 'A', '0', '0', '-', 'x', 'y'] = ['x', 'y'] := by decide

example : stripTicket ['A', '-', 'x', 'A', '1', '-', 'y'] = ['x', 'y'] := by decide

example : stripTicket ['2', '2', 'A', '0', '0', 'x'] = ['2', '2', 'A', '0', '0', 'x'] := by
  decide

/-- A `Phase` entity: only its `title` is read by the report builder. -/
structure PhaseModel where
  title : List Char
  deriving DecidableEq

/-- A `Task` entity as read by the report builder (source lines 164–167):
its `title`, its `type` and its eagerly fetched `phase`. -/
structure TaskModel where
  title : List Char
  type : List Char
  phase : PhaseModel
  deriving DecidableEq

/-- A `Release` entity as read by the report builder (source lines
158–169): display `title`, `url`, `status` and the ordered
`active_tasks` list. -/
structure RelModel where
  title : List Char
  url : List Char
  status : List Char
  active_tasks : List TaskModel
  deriving DecidableEq

/-- The first cell of a release's table row (source line 159):
`" [{stripped title}]({url})"`. -/
def rowTitleCell (r : RelModel) : List Char :=
  [' ', '['] ++ stripTicket r.title ++ ([']', '('] ++ (r.url ++ [')']))

/-- The table row built for one release (source lines 159–169): `v3`–`v5`
start as `"-"` and are overwritten by each active task in turn, so the
last active task wins. -/
def rowFor (r : RelModel) : List (List Char) :=
  let vs := r.active_tasks.foldl
    (fun _ tk => (tk.phase.title, tk.title, tk.type)) (['-'], ['-'], ['-'])
  [rowTitleCell r, r.status, vs.1, vs.2.1, vs.2.2]

/-- The header row of the report table (source line 157). -/
def tableHeaderRow : List (List Char) :=
  [['R', 'e', 'l', 'e', 'a', 's', 'e'],
   ['S', 't', 'a', 't', 'u', 's'],
   ['A', 'c', 't', 'i', 'v', 'e', ' ', 'P', 'h', 'a', 's', 'e'],
   ['A', 'c', 't', 'i', 'v', 'e', ' ', 't', 'a', 's', 'k'],
   ['T', 'a', 's', 'k', ' ', 't', 'y', 'p', 'e']]

/-- Cells of one table line joined by `" | "`. -/
def mdCells : List (List Char) → List Char
  | [] => []
  | [c] => c
  | c :: cs => c ++ ([' ', '|', ' '] ++ mdCells cs)

/-- One rendered table line: `"| "`, the joined cells, `" |"`.  This (and
the two functions below) model the external `markdown_table_generator`
library used at source line 170, which the specification places out of
scope; only the observable shape — every table line starts with a pipe —
matters to the claims. -/
def mdCellsLine (cells : List (List Char)) : List Char :=
  ['|', ' '] ++ (mdCells cells ++ [' ', '|'])

/-- The left-alignment separator line under the header row. -/
def mdAlignLine (n : Nat) : List Char :=
  '|' :: (List.replicate n ([':', '-', '-', '-', '|'] : List Char)).flatten

/-- The data lines of the table, each preceded by its newline. -/
def mdDataRows : List (List (List Char)) → List Char
  | [] => []
  | row :: rest => ('\n' :: mdCellsLine row) ++ mdDataRows rest

/-- `generate_markdown(table_from_string_list(rows, Alignment.LEFT))`:
header line, alignment line, data lines. -/
def generate_markdown : List (List (List Char)) → List Char
  | [] => []
  | hd :: tl => mdCellsLine hd ++ (('\n' :: mdAlignLine hd.length) ++ ('\n' :: mdDataRows tl))

/-- The section header `"## {title}\n"` (source line 152). -/
def mdHeader (title : List Char) : List Char := ['#', '#', ' '] ++ (title ++ ['\n'])

/-- The literal `"No releases found.\n\n"` of source line 172. -/
def noReleasesMsg : List Char :=
  ['N', 'o', ' ', 'r', 'e', 'l', 'e', 'a', 's', 'e', 's', ' ', 'f', 'o', 'u', 'n', 'd',
   '.', '\n', '\n']

/-- `Release.get_md_from_releases(releases, title)` (source lines
150–174): the section header, then either the rendered table (header row
plus one row per release) followed by a newline, or the "No releases
found." message. -/
def get_md_from_releases (releases : List RelModel) (title : List Char) : List Char :=
  if releases.length > 0 then
    mdHeader title ++ (generate_markdown (tableHeaderRow :: releases.map rowFor) ++ ['\n'])
  else
    mdHeader title ++ noReleasesMsg

/-- C6: for every release whose active-task list has two or more entries,
the generated table row shows the phase title, task title and task type of
only the LAST active task — the per-task loop overwrites `v3`–`v5` rather
than accumulating them — so the earlier tasks' values never enter the
row. -/
theorem rowFor_last_task_wins (r : RelModel) (ts : List TaskModel) (b : TaskModel)
    (hts : ts ≠ []) (hat : r.active_tasks = ts ++ [b]) :
    rowFor r = [rowTitleCell r, r.status, b.phase.title, b.title, b.type] := by
  rw [rowFor, hat, List.foldl_append]
  rfl

theorem rowFor_last_task_wins_witness :
    (([⟨['t', '1'], ['y', '1'], ⟨['p', '1']⟩⟩] : List TaskModel) ≠ []
      ∧ (RelModel.mk ['T'] ['u'] ['s']
          [⟨['t', '1'], ['y', '1'], ⟨['p', '1']⟩⟩,
            ⟨['t', '2'], ['y', '2'], ⟨['p', '2']⟩⟩]).active_tasks
        = [⟨['t', '1'], ['y', '1'], ⟨['p', '1']⟩⟩]
            ++ [⟨['t', '2'], ['y', '2'], ⟨['p', '2']⟩⟩])
    ∧ rowFor (RelModel.mk ['T'] ['u'] ['s']
          [⟨['t', '1'], ['y', '1'], ⟨['p', '1']⟩⟩,
            ⟨['t', '2'], ['y', '2'], ⟨['p', '2']⟩⟩])
      = [rowTitleCell (RelModel.mk ['T'] ['u'] ['s']
            [⟨['t', '1'], ['y', '1'], ⟨['p', '1']⟩⟩,
              ⟨['t', '2'], ['y', '2'], ⟨['p', '2']⟩⟩]),
          ['s'], ['p', '2'], ['t', '2'], ['y', '2']] :=
  ⟨⟨by decide, by decide⟩,
    rowFor_last_task_wins
      (RelModel.mk ['T'] ['u'] ['s']
        [⟨['t', '1'], ['y', '1'], ⟨['p', '1']⟩⟩,
          ⟨['t', '2'], ['y', '2'], ⟨['p', '2']⟩⟩])
      [⟨['t', '1'], ['y', '1'], ⟨['p', '1']⟩⟩]
      ⟨['t', '2'], ['y', '2'], ⟨['p', '2']⟩⟩ (by decide) (by decide)⟩

/-- C8: for an empty release list the report section is exactly the
section header followed by the literal "No releases found." line — and,
when the section title itself contains no pipe character, the section
contains no pipe at all, hence no Markdown table.  For a non-empty list
the section is exactly the header followed by the rendered table and a
newline — so the "No releases found." line is absent — and it does contain
a table (a pipe character). -/
theorem get_md_from_releases_sections (title : List Char) (releases : List RelModel)
    (hp : '|' ∉ title) :
    (releases = [] →
      get_md_from_releases releases title = mdHeader title ++ noReleasesMsg
      ∧ '|' ∉ get_md_from_releases releases title)
    ∧ (releases ≠ [] →
      get_md_from_releases releases title
        = mdHeader title
            ++ (generate_markdown (tableHeaderRow :: releases.map rowFor) ++ ['\n'])
      ∧ '|' ∈ get_md_from_releases releases title) := by
  constructor
  · rintro rfl
    refine ⟨rfl, ?_⟩
    intro hmem
    rw [show get_md_from_releases [] title = mdHeader title ++ noReleasesMsg from rfl]
      at hmem
    rcases List.mem_append.mp hmem with h1 | h2
    · rw [mdHeader] at h1
      rcases List.mem_append.mp h1 with h3 | h4
      · exact absurd h3 (by decide)
      · rcases List.mem_append.mp h4 with h5 | h6
        · exact hp h5
        · exact absurd h6 (by decide)
    · exact absurd h2 (by decide)
  · intro hne
    obtain ⟨r, rs, rfl⟩ := List.exists_cons_of_ne_nil hne
    have hif : get_md_from_releases (r :: rs) title
        = mdHeader title
            ++ (generate_markdown (tableHeaderRow :: (r :: rs).map rowFor) ++ ['\n']) := by
      rw [get_md_from_releases, if_pos (by simp)]
    refine ⟨hif, ?_⟩
    rw [hif]
    refine List.mem_append.mpr (Or.inr (List.mem_append.mpr (Or.inl ?_)))
    rw [show (tableHeaderRow :: (r :: rs).map rowFor)
        = tableHeaderRow :: ((r :: rs).map rowFor) from rfl]
    rw [generate_markdown]
    refine List.mem_append.mpr (Or.inl ?_)
    rw [mdCellsLine]
    exact List.mem_append.mpr (Or.inl (by decide))

theorem get_md_from_releases_sections_witness :
    ('|' ∉ (['T'] : List Char))
    ∧ ((([] : List RelModel) = [] →
        get_md_from_releases [] ['T'] = mdHeader ['T'] ++ noReleasesMsg
        ∧ '|' ∉ get_md_from_releases [] ['T'])
      ∧ (([] : List RelModel) ≠ [] →
        get_md_from_releases [] ['T']
          = mdHeader ['T']
              ++ (generate_markdown (tableHeaderRow :: ([] : List RelModel).map rowFor)
                  ++ ['\n'])
        ∧ '|' ∈ get_md_from_releases [] ['T'])) :=
  ⟨by decide, get_md_from_releases_sections ['T'] [] (by decide)⟩

/-! The paginated search `Release.search_releases` (source lines
176–226). -/

/-- A release as returned by one search-result entry, reduced to what the
pagination loop inspects: an identity and the `currentPhase` name used by
the client-side phase-exclusion filter (source line 205). -/
structure SearchItem where
  rid : Nat
  currentPhase : List Char
  deriving DecidableEq

/-- The page of items the server returns for the zero-based page index
`pg` with page size `pageSize`, for a server holding exactly the matching
items `items` in order: the standard offset/limit slice requested by
`/releases/search?page={page}&resultsPerPage=15&pageIsOffset=false`
(source line 197). -/
def pageOf {α : Type} (items : List α) (pageSize pg : Nat) : List α :=
  (items.drop (pageSize * pg)).take pageSize

/-- The `while True` pagination loop (source lines 193–212): request page
`pg`; stop when it is empty (recording the final request), else filter the
page client-side, append it to the accumulator, and continue with `pg + 1`.
The loop is modelled with explicit fuel; `search_releases` supplies
`items.length + 1`, which exceeds the number of iterations the loop can
perform, so the fuel-exhausted branch is never reached.  The second result
component records the page index of every request issued. -/
def searchGo {α : Type} [DecidableEq α] (items : List α) (pageSize : Nat) (keep : α → Bool) :
    Nat → Nat → List α → List Nat → List α × List Nat
  | 0, _, acc, reqs => (acc, reqs)
  | fuel + 1, pg, acc, reqs =>
    if pageOf items pageSize pg = [] then (acc, reqs ++ [pg])
    else searchGo items pageSize keep fuel (pg + 1)
      (acc ++ (pageOf items pageSize pg).filter keep) (reqs ++ [pg])

/-- `Release.search_releases` for a server holding exactly `items`: page
size 15 (source line 197), client-side filter keeping the releases whose
`currentPhase` is not in `exceptPhases` (source line 205), starting from
page 0 with empty accumulators. -/
def search_releases (items : List SearchItem) (exceptPhases : List (List Char)) :
    List SearchItem × List Nat :=
  searchGo items 15 (fun x => !(exceptPhases.contains x.currentPhase))
    (items.length + 1) 0 [] []

/-- Unrolling the pagination loop over a server holding exactly `N * k`
items: starting at page `pg` with `k - pg = j` full pages remaining, the
loop returns the accumulator extended by the filtered remainder and
records the consecutive page indices `pg, …, k`. -/
theorem searchGo_run {α : Type} [DecidableEq α] (items : List α) (N : Nat)
    (keep : α → Bool) (k : Nat)
    (hN : 0 < N) (hlen : items.length = N * k) :
    ∀ (j pg fuel : Nat) (acc : List α) (reqs : List Nat),
      pg + j = k → j < fuel →
      searchGo items N keep fuel pg acc reqs
        = (acc ++ (items.drop (N * pg)).filter keep, reqs ++ List.range' pg (j + 1)) := by
  intro j
  induction j with
  | zero =>
    intro pg fuel acc reqs hpg hf
    cases fuel with
    | zero => exact absurd hf (by omega)
    | succ f =>
      have hpgk : pg = k := by omega
      have hlen2 : items.length ≤ N * pg := by rw [hlen, hpgk]
      have hdrop : items.drop (N * pg) = [] := List.drop_eq_nil_of_le hlen2
      have hempty : pageOf items N pg = [] := by
        rw [pageOf, hdrop, List.take_nil]
      rw [searchGo, if_pos hempty, hdrop]
      simp [List.range']
  | succ j ih =>
    intro pg fuel acc reqs hpg hf
    cases fuel with
    | zero => exact absurd hf (by omega)
    | succ f =>
      have hle : N * pg + N ≤ N * k := by
        have h1 : N * (pg + 1) ≤ N * k := Nat.mul_le_mul_left N (by omega)
        rw [Nat.mul_succ] at h1
        exact h1
      have hlendrop : (items.drop (N * pg)).length = N * k - N * pg := by
        rw [List.length_drop, hlen]
      have hlen2 : (pageOf items N pg).length = N := by
        rw [pageOf, List.length_take, hlendrop]
        exact Nat.min_eq_left (by omega)
      have hne : pageOf items N pg ≠ [] := by
        intro hx
        rw [hx] at hlen2
        simp only [List.length_nil] at hlen2
        omega
      rw [searchGo, if_neg hne]
      rw [ih (pg + 1) f (acc ++ (pageOf items N pg).filter keep) (reqs ++ [pg])
        (by omega) (by omega)]
      have hpages : (pageOf items N pg).filter keep
            ++ (items.drop (N * (pg + 1))).filter keep
          = (items.drop (N * pg)).filter keep := by
        rw [← List.filter_append]
        rw [pageOf]
        have hdd : items.drop (N * (pg + 1)) = (items.drop (N * pg)).drop N := by
          rw [List.drop_drop, Nat.mul_succ]
        rw [hdd, List.take_append_drop]
      rw [List.append_assoc, hpages, List.append_assoc, List.range'_succ]
      rfl

/-- C5: for a server holding exactly `15 * k` matching items (15 is the
fixed page size of source line 197) and no client-side phase exclusion,
`search_releases` issues exactly `k + 1` page requests with consecutive
zero-based indices `0, …, k` — the last request returning zero items — and
returns exactly the `15 * k` matching releases in order, hence without
duplicates, stopping only at the empty page. -/
theorem search_releases_pagination (items : List SearchItem) (k : Nat)
    (hlen : items.length = 15 * k) (hnd : items.Nodup) :
    search_releases items [] = (items, List.range (k + 1))
    ∧ (search_releases items []).1.Nodup
    ∧ pageOf items 15 k = [] := by
  have hrun := searchGo_run items 15
    (fun x => !(([] : List (List Char)).contains x.currentPhase)) k
    (by omega) hlen k 0 (items.length + 1) [] [] (by omega) (by omega)
  have hfilter : items.filter
      (fun x => !(([] : List (List Char)).contains x.currentPhase)) = items := by
    refine List.filter_eq_self.mpr ?_
    intro a _
    rfl
  have hmain : search_releases items [] = (items, List.range (k + 1)) := by
    rw [search_releases, hrun]
    rw [Nat.mul_zero, List.drop_zero, hfilter, List.nil_append, List.nil_append]
    rw [List.range_eq_range']
  refine ⟨hmain, ?_, ?_⟩
  · rw [hmain]
    exact hnd
  · rw [pageOf, List.drop_eq_nil_of_le (by rw [hlen]), List.take_nil]

theorem search_releases_pagination_witness :
    (((List.range 15).map (fun i => SearchItem.mk i [])).length = 15 * 1
      ∧ ((List.range 15).map (fun i => SearchItem.mk i [])).Nodup)
    ∧ (search_releases ((List.range 15).map (fun i => SearchItem.mk i [])) []
        = ((List.range 15).map (fun i => SearchItem.mk i []), List.range 2)
      ∧ (search_releases ((List.range 15).map (fun i => SearchItem.mk i [])) []).1.Nodup
      ∧ pageOf ((List.range 15).map (fun i => SearchItem.mk i [])) 15 1 = []) :=
  ⟨⟨by decide, by decide⟩,
    search_releases_pagination ((List.range 15).map (fun i => SearchItem.mk i [])) 1
      (by decide) (by decide)⟩

/-! The poll loop of `main` (source lines 399–412) and the script entry
point (source lines 415–417).  Times are integer seconds, as produced by
`int(time.time())`. -/

/-- The externally visible action of one cycle of the poll loop: breaking
out of the loop, sleeping for a number of seconds, or logging the
"Wait time too low" warning instead of sleeping. -/
inductive CycleAction where
  | halt
  | sleep (s : Int)
  | warn
  deriving DecidableEq

/-- The `while True` loop of `main` (source lines 400–412), one report
generation duration per cycle taken from `durs` (the loop stops being
modelled when `durs` runs out).  Faithfully to the source: `next_run` is
computed at the top of the cycle as `now + call_every_min * 60`; the loop
breaks when `now > run_end`; after `generate_report` (which advances the
clock by the cycle's duration) the source sets
`sleep_time_s = int(time.time()) - next_run` — the elapsed time MINUS the
tick, not the time remaining until it — then breaks if
`next_run > run_end`, sleeps `sleep_time_s` seconds when it is positive,
and logs the warning otherwise.  Returns the trace of cycle actions and
the final clock value. -/
def pollLoop (run_end interval_min : Int) : Int → List Int → List CycleAction × Int
  | t, [] => ([], t)
  | t, d :: rest =>
    if t > run_end then ([CycleAction.halt], t)
    else
      if t + interval_min * 60 > run_end then ([CycleAction.halt], t + d)
      else
        if (t + d) - (t + interval_min * 60) > 0 then
          match pollLoop run_end interval_min ((t + d) + ((t + d) - (t + interval_min * 60))) rest with
          | (tr, tf) => (CycleAction.sleep ((t + d) - (t + interval_min * 60)) :: tr, tf)
        else
          match pollLoop run_end interval_min (t + d) rest with
          | (tr, tf) => (CycleAction.warn :: tr, tf)

/-- One invocation of `main` (source lines 342–412) reduced to its poll
loop: `run_end = int(time.time()) + run_hours * 60 * 60` (source line
399) followed by the loop.  `run_hours` is modelled in whole hours. -/
def mainRun (interval_min run_hours t0 : Int) (durs : List Int) :
    List CycleAction × Int :=
  pollLoop (t0 + run_hours * 60 * 60) interval_min t0 durs

/-- The `if __name__ == '__main__':` block (source lines 415–417): it
calls `main()` twice in sequence, the second run starting at the clock
value where the first one finished. -/
def scriptRun (interval_min run_hours t0 : Int) (durs1 durs2 : List Int) :
    List CycleAction × Int :=
  let r1 := mainRun interval_min run_hours t0 durs1
  let r2 := mainRun interval_min run_hours r1.2 durs2
  (r1.1 ++ r2.1, r2.2)

/-- C1 (code bug witness): with a 3-minute interval and a one-hour window
starting at time 0, a cycle whose report generation takes 10 seconds —
well under the 180-second interval — does NOT sleep the remaining 170
seconds until the tick; the loop logs the "Wait time too low" warning and
immediately continues, because the source computes
`sleep_time_s = int(time.time()) - next_run` (elapsed minus tick) instead
of `next_run - int(time.time())`.  Conversely a cycle whose generation
takes 200 seconds — overrunning the 180-second interval — sleeps for 20
seconds instead of skipping the sleep. -/
theorem pollLoop_inverted_sleep :
    pollLoop 3600 3 0 [10] = ([CycleAction.warn], 10)
    ∧ pollLoop 3600 3 0 [200] = ([CycleAction.sleep 20], 220) := by
  exact ⟨by decide, by decide⟩

/-- C10: the script entry point executes the whole polling routine
`main()` twice in sequence — the trace of a script invocation is the trace
of one full bounded-duration run followed by the trace of a second full
run starting where the first ended; in particular (second conjunct, taking
a zero-hour window so that each run's loop terminates on its first cycle)
the bounded poll loop runs to completion twice, not once. -/
theorem scriptRun_runs_main_twice :
    (∀ (m h t0 : Int) (durs1 durs2 : List Int),
      (scriptRun m h t0 durs1 durs2).1
        = (mainRun m h t0 durs1).1
            ++ (mainRun m h (mainRun m h t0 durs1).2 durs2).1)
    ∧ (∀ (m t0 x y : Int) (r1 r2 : List Int), 0 < m →
      (scriptRun m 0 t0 (x :: r1) (y :: r2)).1
        = [CycleAction.halt, CycleAction.halt]) := by
  constructor
  · intro m h t0 durs1 durs2
    rfl
  · intro m t0 x y r1 r2 hm
    have hstep : ∀ (t d : Int) (rest : List Int),
        pollLoop (t + 0 * 60 * 60) m t (d :: rest) = ([CycleAction.halt], t + d) := by
      intro t d rest
      rw [pollLoop]
      rw [if_neg (by omega), if_pos (by omega)]
    show (mainRun m 0 t0 (x :: r1)).1
        ++ (mainRun m 0 (mainRun m 0 t0 (x :: r1)).2 (y :: r2)).1
      = [CycleAction.halt, CycleAction.halt]
    rw [mainRun, mainRun, hstep t0 x r1]
    rw [show (([CycleAction.halt], t0 + x) : List CycleAction × Int).2 = t0 + x from rfl]
    rw [hstep (t0 + x) y r2]
    rfl

theorem scriptRun_runs_main_twice_witness :
    ((scriptRun 3 2 0 [5, 7] [11]).1
      = (mainRun 3 2 0 [5, 7]).1
          ++ (mainRun 3 2 (mainRun 3 2 0 [5, 7]).2 [11]).1)
    ∧ (0 : Int) < 3
    ∧ (scriptRun 3 0 0 ((5 : Int) :: []) ((7 : Int) :: [])).1
        = [CycleAction.halt, CycleAction.halt] :=
  ⟨scriptRun_runs_main_twice.1 3 2 0 [5, 7] [11], by decide,
    scriptRun_runs_main_twice.2 3 0 5 7 [] [] (by decide)⟩

end Rsg
